import Mathlib

/-!
Verification of the news-pipeline repository (scheduler / database / scraper).

Strings are modelled as lists of character codes (`Str := List Nat`); Python's
`str.lower` is modelled on the ASCII range, matching the repository's use
(URLs, status strings, keywords).  The fragment of `urllib.parse.urlparse`
exercised by the code — splitting `http://` + rest into netloc and path and
raising `ValueError` on unbalanced square brackets in the netloc — is modelled
explicitly; query and fragment parts are discarded exactly as the source does,
and the `;params` of the last path segment are split off from `.path` (CPython
applies `_splitparams` for the `http` scheme).
Database tables are lists of rows; `CURRENT_TIMESTAMP` is a clock value
carried in the state; a raised exception in fallible collaborators is an
`Except.error`.  All definitions are executable and decidable so every
concrete witness evaluates by `decide`.
-/

/-! ## Definitions: the embedded data model and operations -/

/-- Character-code strings (Python `str` values used by the repository). -/
abbrev Str := List Nat

/-- Decode a Lean string literal into the character-code model. -/
def str (s : String) : Str := s.data.map Char.toNat

/-- ASCII lower-casing of one character code (Python `str.lower` on ASCII). -/
def lowChar (c : Nat) : Nat := if 65 ≤ c ∧ c ≤ 90 then c + 32 else c

/-- Lower-case a whole string. -/
def lowStr (s : Str) : Str := s.map lowChar

/-- Slash character code. -/
def slashC : Nat := 47

/-- Question-mark character code. -/
def questionC : Nat := 63

/-- Hash character code. -/
def hashC : Nat := 35

/-- Opening square bracket character code. -/
def lbrackC : Nat := 91

/-- Closing square bracket character code. -/
def rbrackC : Nat := 93

/-- Semicolon character code. -/
def semiC : Nat := 59

/-- Characters allowed inside the netloc: `urlparse` stops the netloc at the
first `/`, `?` or `#`. -/
def netChar (c : Nat) : Bool := ¬ (c = slashC ∨ c = questionC ∨ c = hashC)

/-- Characters allowed inside the path: the path stops at the first `?` or `#`. -/
def pathChar (c : Nat) : Bool := ¬ (c = questionC ∨ c = hashC)

/-- Netloc of `http://` ++ `u` under `urlparse`: the part of `u` before the
first `/`, `?` or `#`. -/
def netlocOf (u : Str) : Str := u.takeWhile netChar

/-- Remainder of `u` after the netloc. -/
def restOf (u : Str) : Str := u.dropWhile netChar

/-- `urlsplit`'s path of `http://` ++ `u`: the remainder up to the first `?`
or `#`, before the `;params` split that `urlparse` adds on top. -/
def pathRaw (u : Str) : Str := (restOf u).takeWhile pathChar

/-- `urlparse._splitparams` on a path (`http` is in `uses_params`, so
`urlparse` always applies it): cut the last path segment — the part after the
last `/`, or the whole string when it has no `/` — at its first `;`; a path
whose last segment has no `;` is returned unchanged. -/
def paramsStrip (p : Str) : Str :=
  if semiC ∈ p then
    if semiC ∈ (p.reverse.takeWhile (fun c => ¬ c = slashC)).reverse then
      (p.reverse.dropWhile (fun c => ¬ c = slashC)).reverse ++
        ((p.reverse.takeWhile (fun c => ¬ c = slashC)).reverse.takeWhile
          (fun c => ¬ c = semiC))
    else p
  else p

/-- `parsed.path` of `urlparse('http://' + u)`: the raw path with the
`;params` of its last segment removed. -/
def pathOf (u : Str) : Str := paramsStrip (pathRaw u)

/-- `urlsplit` raises `ValueError` when the netloc has an unbalanced square
bracket. -/
def bracketBad (n : Str) : Bool :=
  (lbrackC ∈ n ∧ rbrackC ∉ n) ∨ (rbrackC ∈ n ∧ lbrackC ∉ n)

/-- The fragment of `urlparse('http://' + u)` used by the source: netloc and
path on success, `ValueError` on unbalanced netloc brackets. -/
def urlparseNetlocPath (u : Str) : Except Unit (Str × Str) :=
  if bracketBad (netlocOf u) then .error () else .ok (netlocOf u, pathOf u)

/-- `"http://"` in the character-code model. -/
def httpP : Str := str "http://"

/-- `"https://"` in the character-code model. -/
def httpsP : Str := str "https://"

/-- `"www."` in the character-code model. -/
def wwwP : Str := str "www."

/-- Scheme stripping from `normalize_url`: `url.split('://', 1)[1]` guarded by
`url.startswith(('http://', 'https://'))`. -/
def schemeStrip (u : Str) : Str :=
  if httpP.isPrefixOf u then u.drop 7
  else if httpsP.isPrefixOf u then u.drop 8
  else u

/-- `www.` stripping from `normalize_url`: `url.split('www.', 1)[1]` guarded by
`url.startswith('www.')`. -/
def wwwStrip (u : Str) : Str :=
  if wwwP.isPrefixOf u then u.drop 4 else u

/-- Python `path.rstrip('/')`: drop trailing slashes. -/
def rstripSlash : Str → Str
  | [] => []
  | c :: t =>
    match rstripSlash t with
    | [] => if c = slashC then [] else [c]
    | r => c :: r

/-- `NewsScheduler.normalize_url` (identical to
`Database._normalize_url_aggressive` and `TelegramBot.normalize_url`):
strip an `http`/`https` scheme, strip one leading `www.`, parse the rest as
netloc + path, drop a trailing slash from the path, lower-case, and
concatenate netloc and path.  On a parse error, return the lower-cased string
as it stands at that point. -/
def normalize_url (u : Str) : Str :=
  if u = [] then []
  else
    let u1 := wwwStrip (schemeStrip u)
    match urlparseNetlocPath u1 with
    | .ok (n, p) => lowStr (n ++ rstripSlash p)
    | .error _ => lowStr u1

/-- The url after the scheme- and `www.`-stripping steps of `normalize_url`. -/
def strippedUrl (u : Str) : Str := wwwStrip (schemeStrip u)

/-- Article status values (`pending` is the schema default; the moderation
interface writes `rejected` and `published`). -/
inductive Status where
  | pending
  | rejected
  | published
deriving DecidableEq

/-- A row of the `news_articles` table. -/
structure ArticleRow where
  id : Nat
  sourceId : Nat
  originalTitle : Str
  originalContent : Str
  originalUrl : Str
  rewrittenTitle : Option Str
  rewrittenContent : Option Str
  hashtags : Option (List Str)
  imageUrl : Option Str
  imagePath : Option Str
  status : Status
  createdAt : Nat
  publishedAt : Option Nat
deriving DecidableEq

/-- A row of the `news_sources` table. -/
structure SourceRow where
  id : Nat
  name : Str
  url : Str
  source_type : Str
  isActive : Bool
  lastCheck : Option Nat
deriving DecidableEq

/-- Database state: table contents, the next `rowid` for article inserts, and
the value of `CURRENT_TIMESTAMP` (one logical operation sees one clock value). -/
structure DB where
  sources : List SourceRow
  articles : List ArticleRow
  keywords : List Str
  nextId : Nat
  now : Nat
deriving DecidableEq

/-- `Database.get_article_by_id`, restricted to the article row (the LEFT JOIN
only adds a presentational source name). -/
def get_article_by_id (db : DB) (articleId : Nat) : Option ArticleRow :=
  db.articles.find? (fun a => a.id == articleId)

/-- `Database.update_article_status`: `UPDATE news_articles SET status = ?`
(plus `published_at = CURRENT_TIMESTAMP` when the new status is `published`)
`WHERE id = ?`.  No check of the current status is performed. -/
def update_article_status (db : DB) (articleId : Nat) (status : Status) : DB :=
  if status = .published then
    { db with articles := db.articles.map (fun a =>
        if a.id = articleId then { a with status := status, publishedAt := some db.now }
        else a) }
  else
    { db with articles := db.articles.map (fun a =>
        if a.id = articleId then { a with status := status } else a) }

/-- `Database.update_article_rewrite`: sets the rewritten title/content and the
hashtag list (stored serialized) on the matching row. -/
def update_article_rewrite (db : DB) (articleId : Nat) (t c : Str) (hs : List Str) : DB :=
  { db with articles := db.articles.map (fun a =>
      if a.id = articleId then
        { a with rewrittenTitle := some t, rewrittenContent := some c, hashtags := some hs }
      else a) }

/-- `Database.update_article_image`: sets `image_url` and `image_path` on the
matching row. -/
def update_article_image (db : DB) (articleId : Nat) (u p : Str) : DB :=
  { db with articles := db.articles.map (fun a =>
      if a.id = articleId then { a with imageUrl := some u, imagePath := some p } else a) }

/-- A published article, used as concrete counterexample state. -/
def artPublished : ArticleRow where
  id := 1
  sourceId := 1
  originalTitle := str "t"
  originalContent := str "c"
  originalUrl := str "example.com/a"
  rewrittenTitle := none
  rewrittenContent := none
  hashtags := none
  imageUrl := none
  imagePath := none
  status := .published
  createdAt := 5
  publishedAt := some 5

/-- A database holding exactly the published article `artPublished`. -/
def statusDB : DB where
  sources := []
  articles := [artPublished]
  keywords := []
  nextId := 2
  now := 9

/-- A pending article used for the C8 witness. -/
def artPending : ArticleRow where
  id := 3
  sourceId := 1
  originalTitle := str "t2"
  originalContent := str "c2"
  originalUrl := str "example.com/b"
  rewrittenTitle := none
  rewrittenContent := none
  hashtags := none
  imageUrl := none
  imagePath := none
  status := .pending
  createdAt := 6
  publishedAt := none

/-- A database holding exactly the pending article `artPending`. -/
def pendingDB : DB where
  sources := []
  articles := [artPending]
  keywords := []
  nextId := 4
  now := 11

/-- Newest-first comparison used by `ORDER BY created_at DESC`. -/
def newerFirst (a b : ArticleRow) : Prop := b.createdAt ≤ a.createdAt

instance : DecidableRel newerFirst := fun a b => Nat.decLe b.createdAt a.createdAt

instance : IsTotal ArticleRow newerFirst :=
  ⟨fun a b => Nat.le_total b.createdAt a.createdAt⟩

instance : IsTrans ArticleRow newerFirst :=
  ⟨fun _ _ _ hab hbc => Nat.le_trans hbc hab⟩

/-- Deterministic model of `ORDER BY created_at DESC` (SQLite leaves the order
of ties unspecified; the model uses a stable sort). -/
def sortNewestFirst (l : List ArticleRow) : List ArticleRow :=
  List.insertionSort newerFirst l

/-- The pending rows of the store (the set the spec's `listPendingPage`
enumerates). -/
def pendingOf (db : DB) : List ArticleRow :=
  db.articles.filter (fun a => a.status == Status.pending)

/-- `Database.get_pending_articles_paginated`: the total is a plain
`COUNT(*) ... WHERE status = 'pending'`; the page an inner join with
`news_sources`, filtered to `pending`, ordered newest-first, with
`LIMIT page_size OFFSET (page - 1) * page_size`. -/
def get_pending_articles_paginated (db : DB) (page pageSize : Nat) :
    List ArticleRow × Nat :=
  let total := (db.articles.filter (fun a => a.status == Status.pending)).length
  let rows := sortNewestFirst (db.articles.filter (fun a =>
      a.status == Status.pending && db.sources.any (fun s => s.id == a.sourceId)))
  ((rows.drop ((page - 1) * pageSize)).take pageSize, total)

/-- Python `needle in haystack` for strings: contiguous-substring test. -/
def containsSub : Str → Str → Bool
  | hay, needle =>
    needle.isPrefixOf hay ||
      match hay with
      | [] => false
      | _ :: t => containsSub t needle

/-- Lexicographic comparison on character codes (SQLite `ORDER BY` on text). -/
def strLeB : Str → Str → Bool
  | [], _ => true
  | _ :: _, [] => false
  | a :: s, b :: t => if a < b then true else if a = b then strLeB s t else false

/-- `ORDER BY` relation for strings. -/
def strLe (a b : Str) : Prop := strLeB a b = true

instance : DecidableRel strLe :=
  fun a b => inferInstanceAs (Decidable (strLeB a b = true))

/-- `Database.get_keywords`: `SELECT keyword FROM keywords ORDER BY keyword`. -/
def get_keywords (db : DB) : List Str := List.insertionSort strLe db.keywords

/-- `Database.add_keyword`: inserts `keyword.lower()`; the UNIQUE constraint
turns a duplicate into a `False` return. -/
def add_keyword (db : DB) (k : Str) : Bool × DB :=
  if lowStr k ∈ db.keywords then (false, db)
  else (true, { db with keywords := db.keywords ++ [lowStr k] })

/-- `Database.delete_keyword`: deletes `keyword.lower()`, reporting whether a
row was removed. -/
def delete_keyword (db : DB) (k : Str) : Bool × DB :=
  (lowStr k ∈ db.keywords,
    { db with keywords := db.keywords.filter (fun x => x ≠ lowStr k) })

/-- `NewsScraper.is_marketplace_related`: true when the keyword table is empty,
otherwise true iff some stored keyword occurs in the lower-cased text. -/
def is_marketplace_related (db : DB) (text : Str) : Bool :=
  if get_keywords db = [] then true
  else (get_keywords db).any (fun k => containsSub (lowStr text) k)

/-- The spec's notion: `needle` is a case-insensitive substring of `t`. -/
def caseInsensitiveSubstr (needle t : Str) : Bool :=
  containsSub (lowStr t) (lowStr needle)

/-- A store holding the single keyword `ozon`. -/
def kwDB : DB where
  sources := []
  articles := []
  keywords := [str "ozon"]
  nextId := 1
  now := 0

/-- A candidate item returned by `NewsScraper.scrape_source`. -/
structure Item where
  title : Str
  content : Str
  url : Str
deriving DecidableEq

/-- `Database.article_exists`. -/
def article_exists (db : DB) (url : Str) : Bool :=
  db.articles.any (fun a => a.originalUrl == url)

/-- `Database.add_news_article`: INSERT returning the new rowid, or `none`
when the UNIQUE index on `original_url` rejects the row. -/
def add_news_article (db : DB) (sourceId : Nat) (title content url : Str) :
    Option Nat × DB :=
  if article_exists db url then (none, db)
  else
    (some db.nextId,
      { db with
        articles := db.articles ++ [{
          id := db.nextId, sourceId := sourceId, originalTitle := title,
          originalContent := content, originalUrl := url, rewrittenTitle := none,
          rewrittenContent := none, hashtags := none, imageUrl := none,
          imagePath := none, status := .pending, createdAt := db.now,
          publishedAt := none }],
        nextId := db.nextId + 1 })

/-- `Database.update_source_last_check`: `SET last_check = CURRENT_TIMESTAMP
WHERE id = ?`. -/
def update_source_last_check (db : DB) (sourceId : Nat) : DB :=
  { db with sources := db.sources.map (fun s =>
      if s.id = sourceId then { s with lastCheck := some db.now } else s) }

/-- `Database.get_source_by_id`. -/
def get_source_by_id (db : DB) (sourceId : Nat) : Option SourceRow :=
  db.sources.find? (fun s => s.id == sourceId)

/-- `ORDER BY name` relation for sources. -/
def nameLe (a b : SourceRow) : Prop := strLe a.name b.name

instance : DecidableRel nameLe :=
  fun a b => inferInstanceAs (Decidable (strLeB a.name b.name = true))

/-- `Database.get_news_sources(active_only=True)`: active sources ordered by
name (ties kept in table order by the stable model sort). -/
def get_news_sources_active (db : DB) : List SourceRow :=
  List.insertionSort nameLe (db.sources.filter (fun s => s.isActive))

/-- The scraper as seen by the scheduler: `scrape_source(source_type, url)`;
`Except.error` models a raised exception. -/
abbrev Fetch := Str → Str → Except Unit (List Item)

/-- Python dict upsert (insertion-ordered association list; an existing key
keeps its position). -/
def dictUpsert : List (Str × Nat) → Str → Nat → List (Str × Nat)
  | [], k, v => [(k, v)]
  | (k', v') :: rest, k, v =>
    if k' = k then (k, v) :: rest else (k', v') :: dictUpsert rest k v

/-- `{source['name']: 0 for source in sources}`: duplicate names collapse. -/
def dictInit (names : List Str) : List (Str × Nat) :=
  names.foldl (fun m n => dictUpsert m n 0) []

/-- Dict lookup. -/
def dictGet (m : List (Str × Nat)) (k : Str) : Option Nat :=
  (m.find? (fun e => e.1 == k)).map (fun e => e.2)

/-- `articles_by_source[name] += c`. -/
def dictAdd (m : List (Str × Nat)) (k : Str) (c : Nat) : List (Str × Nat) :=
  m.map (fun e => if e.1 = k then (e.1, e.2 + c) else e)

/-- The inner loop of `check_sources_for_news` over one source's items:
normalize, skip empty, skip existing, insert, count the successes. -/
def processItems : DB → Nat → List Item → DB × Nat
  | db, _, [] => (db, 0)
  | db, sourceId, it :: rest =>
    if normalize_url it.url = [] then processItems db sourceId rest
    else if article_exists db (normalize_url it.url) then processItems db sourceId rest
    else
      match add_news_article db sourceId it.title it.content (normalize_url it.url) with
      | (some _, db') =>
        let r := processItems db' sourceId rest
        (r.1, r.2 + 1)
      | (none, db') => processItems db' sourceId rest

/-- Aggregated sweep result. -/
structure SweepResult where
  total : Nat
  by_source : List (Str × Nat)
deriving DecidableEq

/-- The per-source loop of `check_sources_for_news`: a raising fetch skips the
whole source (no last-check update, no counts); a successful fetch processes
the items, adds the per-source count, and stamps the last-check. -/
def sweepSources (fetch : Fetch) : DB → List SourceRow → List (Str × Nat) → Nat →
    DB × List (Str × Nat) × Nat
  | db, [], acc, total => (db, acc, total)
  | db, s :: rest, acc, total =>
    match fetch s.source_type s.url with
    | .error _ => sweepSources fetch db rest acc total
    | .ok items =>
      let pr := processItems db s.id items
      sweepSources fetch (update_source_last_check pr.1 s.id) rest
        (dictAdd acc s.name pr.2) (total + pr.2)

/-- `NewsScheduler.check_sources_for_news`: snapshot the active sources,
initialize the per-name counters, run the per-source loop. -/
def check_sources_for_news (db : DB) (fetch : Fetch) : SweepResult × DB :=
  let sources := get_news_sources_active db
  let r := sweepSources fetch db sources (dictInit (sources.map (fun s => s.name))) 0
  ({ total := r.2.2, by_source := r.2.1 }, r.1)

/-- Scheduler state: the `is_running` flag the source keeps, plus whether a
timer-triggered sweep is currently mid-flight (a runtime condition the source
never records or consults). -/
structure SchedulerState where
  is_running : Bool
  sweepInFlight : Bool
deriving DecidableEq

/-- Outcome domain of a manual trigger: the spec's `SchedulerBusy` rejection,
or a completed sweep result.  The source can only ever produce `ran`. -/
inductive ForceOutcome where
  | ran : SweepResult → ForceOutcome
  | busy : ForceOutcome
deriving DecidableEq

/-- `NewsScheduler.force_check_sources`: calls `check_sources_for_news`
unconditionally and returns its result; no flag or lock is consulted. -/
def force_check_sources (_st : SchedulerState) (db : DB) (fetch : Fetch) :
    ForceOutcome × DB :=
  (ForceOutcome.ran (check_sources_for_news db fetch).1,
    (check_sources_for_news db fetch).2)

/-- Two active sources named `a`; the first raises on fetch, the second
yields one fresh item. -/
def colSrc1 : SourceRow where
  id := 1
  name := str "a"
  url := str "u1"
  source_type := str "rss"
  isActive := true
  lastCheck := none

/-- Second source with the same display name `a`. -/
def colSrc2 : SourceRow where
  id := 2
  name := str "a"
  url := str "u2"
  source_type := str "rss"
  isActive := true
  lastCheck := none

/-- Store with the two like-named sources and no articles. -/
def colDB : DB where
  sources := [colSrc1, colSrc2]
  articles := []
  keywords := []
  nextId := 1
  now := 100

/-- Fetch behaviour: `u1` raises, `u2` returns one item. -/
def colFetch : Fetch := fun _ url =>
  if url = str "u2" then
    .ok [{ title := str "t", content := str "c", url := str "x.com" }]
  else .error ()

/-- Sources with distinct names for the C5 witness: `alpha` fails, `beta`
succeeds with no items. -/
def wSrc1 : SourceRow where
  id := 1
  name := str "alpha"
  url := str "u1"
  source_type := str "rss"
  isActive := true
  lastCheck := none

/-- The succeeding source of the C5 witness. -/
def wSrc2 : SourceRow where
  id := 2
  name := str "beta"
  url := str "u2"
  source_type := str "rss"
  isActive := true
  lastCheck := none

/-- Store for the C5 witness. -/
def wDB : DB where
  sources := [wSrc1, wSrc2]
  articles := []
  keywords := []
  nextId := 1
  now := 50

/-- Fetch behaviour for the C5 witness: `u1` raises, everything else returns
an empty batch. -/
def wFetch : Fetch := fun _ url =>
  if url = str "u1" then .error () else .ok []

/-- Source for the C7 witness. -/
def pagSrc : SourceRow where
  id := 1
  name := str "src"
  url := str "example.com"
  source_type := str "rss"
  isActive := true
  lastCheck := none

/-- An older pending article for the C7 witness. -/
def pagArt1 : ArticleRow where
  id := 21
  sourceId := 1
  originalTitle := str "t1"
  originalContent := str "c1"
  originalUrl := str "example.com/1"
  rewrittenTitle := none
  rewrittenContent := none
  hashtags := none
  imageUrl := none
  imagePath := none
  status := .pending
  createdAt := 10
  publishedAt := none

/-- A newer pending article for the C7 witness. -/
def pagArt2 : ArticleRow where
  id := 22
  sourceId := 1
  originalTitle := str "t2"
  originalContent := str "c2"
  originalUrl := str "example.com/2"
  rewrittenTitle := none
  rewrittenContent := none
  hashtags := none
  imageUrl := none
  imagePath := none
  status := .pending
  createdAt := 15
  publishedAt := none

/-- Store with one source and two pending articles for the C7 witness. -/
def pagDB : DB where
  sources := [pagSrc]
  articles := [pagArt1, pagArt2]
  keywords := []
  nextId := 23
  now := 20

/-! ## Theorems -/

theorem lowChar_lowChar (c : Nat) : lowChar (lowChar c) = lowChar c := by
  unfold lowChar
  split_ifs <;> omega

theorem lowStr_lowStr (s : Str) : lowStr (lowStr s) = lowStr s := by
  simp only [lowStr, List.map_map]
  exact List.map_congr_left (fun c _ => lowChar_lowChar c)

theorem lowStr_append (s t : Str) : lowStr (s ++ t) = lowStr s ++ lowStr t :=
  List.map_append lowChar s t

theorem lowStr_eq_nil {s : Str} : lowStr s = [] ↔ s = [] := by
  simp [lowStr]

theorem lowChar_eq_self_iff (c d : Nat) (hd65 : d < 65 ∨ 90 < d) (hd : ¬ (97 ≤ d ∧ d ≤ 122)) :
    lowChar c = d ↔ c = d := by
  unfold lowChar
  split
  · omega
  · omega

theorem netChar_lowChar (c : Nat) : netChar (lowChar c) = netChar c := by
  unfold netChar lowChar slashC questionC hashC
  split
  · simp only [decide_eq_decide]
    omega
  · rfl

theorem pathChar_lowChar (c : Nat) : pathChar (lowChar c) = pathChar c := by
  unfold pathChar lowChar questionC hashC
  split
  · simp only [decide_eq_decide]
    omega
  · rfl

theorem mem_lowStr_iff (d : Nat) (hd65 : d < 65 ∨ 90 < d) (hd : ¬ (97 ≤ d ∧ d ≤ 122))
    (s : Str) : d ∈ lowStr s ↔ d ∈ s := by
  simp only [lowStr, List.mem_map]
  constructor
  · rintro ⟨c, hc, hcd⟩
    rwa [(lowChar_eq_self_iff c d hd65 hd).mp hcd] at hc
  · intro h
    exact ⟨d, h, (lowChar_eq_self_iff d d hd65 hd).mpr rfl⟩

theorem bracketBad_lowStr (s : Str) : bracketBad (lowStr s) = bracketBad s := by
  unfold bracketBad
  rw [decide_eq_decide,
      mem_lowStr_iff lbrackC (by unfold lbrackC; omega) (by unfold lbrackC; omega),
      mem_lowStr_iff rbrackC (by unfold rbrackC; omega) (by unfold rbrackC; omega)]

theorem takeWhile_append_all {p : Nat → Bool} {xs : Str} (h : ∀ x ∈ xs, p x = true)
    (ys : Str) : (xs ++ ys).takeWhile p = xs ++ ys.takeWhile p := by
  induction xs with
  | nil => rfl
  | cons a t ih =>
    have ha : p a = true := h a (by simp)
    simp only [List.cons_append, List.takeWhile_cons, ha, if_true]
    rw [ih (fun x hx => h x (by simp [hx]))]

theorem dropWhile_append_all {p : Nat → Bool} {xs : Str} (h : ∀ x ∈ xs, p x = true)
    (ys : Str) : (xs ++ ys).dropWhile p = ys.dropWhile p := by
  induction xs with
  | nil => rfl
  | cons a t ih =>
    have ha : p a = true := h a (by simp)
    simp only [List.cons_append, List.dropWhile_cons, ha, if_true]
    exact ih (fun x hx => h x (by simp [hx]))

theorem takeWhile_append_split (p : Nat → Bool) (xs ys : Str) :
    (xs ++ ys).takeWhile p =
      if xs.all p then xs ++ ys.takeWhile p else xs.takeWhile p := by
  split
  · next h => exact takeWhile_append_all (by simpa [List.all_eq_true] using h) ys
  · next h =>
    induction xs with
    | nil => simp at h
    | cons a t ih =>
      by_cases ha : p a = true
      · simp only [List.all_cons, ha, Bool.true_and] at h
        simp only [List.cons_append, List.takeWhile_cons, ha, if_true]
        rw [ih h]
      · have ha' : p a = false := by revert ha; cases p a <;> simp
        simp [List.takeWhile_cons, ha']

theorem dropWhile_append_split (p : Nat → Bool) (xs ys : Str) :
    (xs ++ ys).dropWhile p =
      if xs.all p then ys.dropWhile p else xs.dropWhile p ++ ys := by
  split
  · next h => exact dropWhile_append_all (by simpa [List.all_eq_true] using h) ys
  · next h =>
    induction xs with
    | nil => simp at h
    | cons a t ih =>
      by_cases ha : p a = true
      · simp only [List.all_cons, ha, Bool.true_and] at h
        simp only [List.cons_append, List.dropWhile_cons, ha, if_true]
        rw [ih h]
      · have ha' : p a = false := by revert ha; cases p a <;> simp
        simp [List.dropWhile_cons, ha']

theorem takeWhile_append_bad {p : Nat → Bool} {c : Nat} (hc : p c = false)
    (xs ys : Str) : (xs ++ c :: ys).takeWhile p = xs.takeWhile p := by
  rw [takeWhile_append_split]
  split
  · next h =>
    have : xs.takeWhile p = xs := by
      rw [List.takeWhile_eq_self_iff]
      simpa [List.all_eq_true] using h
    simp [List.takeWhile_cons, hc, this]
  · rfl

theorem dropWhile_append_bad {p : Nat → Bool} {c : Nat} (hc : p c = false)
    (xs ys : Str) : (xs ++ c :: ys).dropWhile p = xs.dropWhile p ++ c :: ys := by
  rw [dropWhile_append_split]
  split
  · next h =>
    have hd : xs.dropWhile p = [] := by
      rw [List.dropWhile_eq_nil_iff]
      simpa [List.all_eq_true] using h
    simp [List.dropWhile_cons, hc, hd]
  · rfl

theorem rstripSlash_cons (a : Nat) (t : Str) :
    rstripSlash (a :: t) =
      match rstripSlash t with
      | [] => if a = slashC then [] else [a]
      | r => a :: r := rfl

theorem rstripSlash_append_slash (xs : Str) :
    rstripSlash (xs ++ [slashC]) = rstripSlash xs := by
  induction xs with
  | nil => rfl
  | cons a t ih =>
    rw [List.cons_append, rstripSlash_cons, rstripSlash_cons, ih]

theorem rstripSlash_idem (xs : Str) : rstripSlash (rstripSlash xs) = rstripSlash xs := by
  induction xs with
  | nil => rfl
  | cons a t ih =>
    rw [rstripSlash_cons]
    cases h : rstripSlash t with
    | nil =>
      by_cases ha : a = slashC
      · rw [if_pos ha]; rfl
      · rw [if_neg ha, rstripSlash_cons]
        show (if a = slashC then [] else [a]) = [a]
        rw [if_neg ha]
    | cons b u =>
      rw [h] at ih
      rw [rstripSlash_cons, ih]

theorem mem_rstripSlash {a : Nat} {xs : Str} (h : a ∈ rstripSlash xs) : a ∈ xs := by
  induction xs with
  | nil => exact absurd h (List.not_mem_nil a)
  | cons b t ih =>
    rw [rstripSlash_cons] at h
    revert h
    cases hr : rstripSlash t with
    | nil =>
      intro h
      split at h <;> simp_all
    | cons c u =>
      intro h
      rcases List.mem_cons.mp h with h | h
      · simp [h]
      · exact List.mem_cons_of_mem _ (ih (hr ▸ h))

theorem rstripSlash_eq_nil_or_head (c : Nat) (t : Str) :
    rstripSlash (c :: t) = [] ∨ ∃ t', rstripSlash (c :: t) = c :: t' := by
  rw [rstripSlash_cons]
  cases rstripSlash t with
  | nil =>
    by_cases hc : c = slashC
    · exact .inl (by rw [if_pos hc])
    · exact .inr ⟨[], by rw [if_neg hc]⟩
  | cons b u => exact .inr ⟨b :: u, rfl⟩

theorem rstripSlash_lowStr (xs : Str) :
    rstripSlash (lowStr xs) = lowStr (rstripSlash xs) := by
  induction xs with
  | nil => rfl
  | cons a t ih =>
    have hslash : (lowChar a = slashC) ↔ (a = slashC) :=
      lowChar_eq_self_iff a slashC (by unfold slashC; omega) (by unfold slashC; omega)
    show rstripSlash (lowChar a :: lowStr t) = lowStr (rstripSlash (a :: t))
    rw [rstripSlash_cons, rstripSlash_cons, ih]
    cases h : rstripSlash t with
    | nil =>
      by_cases ha : a = slashC
      · simp [lowStr, ha, hslash.mpr ha, lowChar, slashC]
      · have ha' : ¬ lowChar a = slashC := fun hc => ha (hslash.mp hc)
        simp [lowStr, ha, ha']
    | cons b u => simp [lowStr]

theorem isPrefixOf_append_self (xs ys : Str) : xs.isPrefixOf (xs ++ ys) = true := by
  rw [List.isPrefixOf_iff_prefix]
  exact ⟨ys, rfl⟩

theorem notPrefix_append {P v : Str} {c : Nat} (hc : c ∉ P)
    (h : P.isPrefixOf v = false) (q : Str) : P.isPrefixOf (v ++ c :: q) = false := by
  revert v
  induction P with
  | nil => intro v h; simp [List.isPrefixOf] at h
  | cons p P' ih =>
    intro v h
    cases v with
    | nil =>
      simp only [List.nil_append, List.isPrefixOf]
      have hpc : ¬ (p = c) := fun hpc => hc (by simp [hpc])
      simp [beq_eq_false_iff_ne, hpc]
    | cons a v' =>
      simp only [List.cons_append, List.isPrefixOf] at *
      rcases Bool.and_eq_false_iff.mp h with h1 | h1
      · simp [h1]
      · simp only [List.append_eq]
        rw [ih (fun hx => hc (List.mem_cons_of_mem _ hx)) h1]
        simp

theorem schemeStrip_of_clean {v : Str} (h1 : httpP.isPrefixOf v = false)
    (h2 : httpsP.isPrefixOf v = false) : schemeStrip v = v := by
  simp [schemeStrip, h1, h2]

theorem wwwStrip_of_clean {v : Str} (h3 : wwwP.isPrefixOf v = false) :
    wwwStrip v = v := by
  simp [wwwStrip, h3]

theorem normalize_url_of_clean (v : Str) (h1 : httpP.isPrefixOf v = false)
    (h2 : httpsP.isPrefixOf v = false) (h3 : wwwP.isPrefixOf v = false) :
    normalize_url v =
      match urlparseNetlocPath v with
      | .ok (n, p) => lowStr (n ++ rstripSlash p)
      | .error _ => lowStr v := by
  cases hv : v with
  | nil => rfl
  | cons a t =>
    rw [← hv]
    unfold normalize_url
    rw [if_neg (by simp [hv]), schemeStrip_of_clean h1 h2, wwwStrip_of_clean h3]

theorem netlocOf_lowStr (u : Str) : netlocOf (lowStr u) = lowStr (netlocOf u) := by
  unfold netlocOf lowStr
  rw [List.takeWhile_map]
  congr 1
  exact congrArg (fun p => List.takeWhile p u) (funext fun c => by
    rw [Function.comp_apply, netChar_lowChar])

theorem restOf_lowStr (u : Str) : restOf (lowStr u) = lowStr (restOf u) := by
  unfold restOf lowStr
  rw [List.dropWhile_map]
  congr 1
  exact congrArg (fun p => List.dropWhile p u) (funext fun c => by
    rw [Function.comp_apply, netChar_lowChar])

theorem pathRaw_lowStr (u : Str) : pathRaw (lowStr u) = lowStr (pathRaw u) := by
  unfold pathRaw
  rw [restOf_lowStr]
  unfold lowStr
  rw [List.takeWhile_map]
  congr 1
  exact congrArg (fun p => List.takeWhile p (restOf u)) (funext fun c => by
    rw [Function.comp_apply, pathChar_lowChar])

theorem mem_paramsStrip {a : Nat} {p : Str} (h : a ∈ paramsStrip p) : a ∈ p := by
  unfold paramsStrip at h
  split at h
  · split at h
    · rcases List.mem_append.mp h with h | h
      · exact List.mem_reverse.mp
          ((List.dropWhile_sublist _).subset (List.mem_reverse.mp h))
      · have h1 := (List.takeWhile_sublist _).subset h
        exact List.mem_reverse.mp
          ((List.takeWhile_sublist _).subset (List.mem_reverse.mp h1))
    · exact h
  · exact h

theorem dropWhile_ne_slash_cons_reverse (t : Str) :
    ∃ x, (slashC :: t).reverse.dropWhile (fun c => ¬ c = slashC) = x ++ [slashC] := by
  rw [List.reverse_cons, dropWhile_append_split]
  split
  · refine ⟨[], ?_⟩
    show List.dropWhile _ (slashC :: []) = [] ++ [slashC]
    rw [List.dropWhile_cons]
    norm_num
  · exact ⟨_, rfl⟩

theorem paramsStrip_cons_slash (t : Str) :
    ∃ t', paramsStrip (slashC :: t) = slashC :: t' := by
  unfold paramsStrip
  split
  · split
    · obtain ⟨x, hx⟩ := dropWhile_ne_slash_cons_reverse t
      rw [hx, List.reverse_append]
      refine ⟨x.reverse ++ ((slashC :: t).reverse.takeWhile
        (fun c => ¬ c = slashC)).reverse.takeWhile (fun c => ¬ c = semiC), ?_⟩
      simp
    · exact ⟨t, rfl⟩
  · exact ⟨t, rfl⟩

theorem paramsStrip_append_slash (x : Str) :
    paramsStrip (x ++ [slashC]) = x ++ [slashC] := by
  have hseg : (x ++ [slashC]).reverse.takeWhile (fun c => ¬ c = slashC) = [] := by
    rw [List.reverse_append]
    show List.takeWhile _ (slashC :: x.reverse) = []
    rw [List.takeWhile_cons]
    norm_num
  unfold paramsStrip
  split
  · rw [if_neg (by rw [hseg]; simp)]
  · rfl

/-- A successful parse: path is empty or starts with a slash, and its
trailing-slash-stripped form likewise. -/
theorem pathOf_shape (u : Str) :
    rstripSlash (pathOf u) = [] ∨ ∃ t, rstripSlash (pathOf u) = slashC :: t := by
  unfold pathOf pathRaw
  cases hr : restOf u with
  | nil => exact .inl (by decide)
  | cons c rest =>
    have hc : netChar c = false := by
      have := List.dropWhile_eq_self_iff (p := netChar) (l := restOf u)
      by_cases h : netChar c = true
      · exfalso
        have hself : (restOf u).dropWhile netChar = restOf u := by
          unfold restOf
          rw [List.dropWhile_idempotent]
        rw [hr] at hself
        have : netChar c = false := by
          have h0 : 0 < (c :: rest).length := by simp
          have := (List.dropWhile_eq_self_iff.mp hself) h0
          simpa using this
        simp [h] at this
      · simpa using h
    have hc' : c = slashC ∨ c = questionC ∨ c = hashC := by
      unfold netChar at hc
      have := by simpa using hc
      tauto
    rcases hc' with h | h
    · subst h
      have hpc : pathChar slashC = true := by decide
      rw [List.takeWhile_cons, hpc, if_pos rfl]
      obtain ⟨t', ht'⟩ := paramsStrip_cons_slash (rest.takeWhile pathChar)
      rw [ht']
      rcases rstripSlash_eq_nil_or_head slashC t' with h' | ⟨t, h'⟩
      · exact .inl h'
      · exact .inr ⟨t, h'⟩
    · rcases h with h | h <;> subst h
      · rw [List.takeWhile_cons]
        simp [pathChar, paramsStrip, rstripSlash]
      · rw [List.takeWhile_cons]
        simp [pathChar, paramsStrip, rstripSlash]

theorem lowStr_all {p : Nat → Bool} (hp : ∀ c, p (lowChar c) = p c) {s : Str}
    (h : ∀ x ∈ s, p x = true) : ∀ x ∈ lowStr s, p x = true := by
  intro x hx
  obtain ⟨c, hc, rfl⟩ := List.mem_map.mp hx
  rw [hp]
  exact h c hc

theorem netlocOf_all (u : Str) : ∀ x ∈ netlocOf u, netChar x = true :=
  fun _ hx => List.mem_takeWhile_imp hx

theorem pathOf_all (u : Str) : ∀ x ∈ pathOf u, pathChar x = true :=
  fun _ hx => List.mem_takeWhile_imp (mem_paramsStrip hx)

/-- Re-normalizing an already produced netloc ++ path output is the identity,
provided the output does not itself start with a scheme or `www.` prefix. -/
theorem normalize_url_roundtrip (n p' : Str)
    (hn : ∀ x ∈ n, netChar x = true)
    (hb : bracketBad n = false)
    (hp : ∀ x ∈ p', pathChar x = true)
    (hshape : p' = [] ∨ ∃ t, p' = slashC :: t)
    (hstrip : rstripSlash p' = p')
    (hparams : paramsStrip (pathRaw (lowStr (n ++ p'))) = pathRaw (lowStr (n ++ p')))
    (h1 : httpP.isPrefixOf (lowStr (n ++ p')) = false)
    (h2 : httpsP.isPrefixOf (lowStr (n ++ p')) = false)
    (h3 : wwwP.isPrefixOf (lowStr (n ++ p')) = false) :
    normalize_url (lowStr (n ++ p')) = lowStr (n ++ p') := by
  have hnl : ∀ x ∈ lowStr n, netChar x = true := lowStr_all netChar_lowChar hn
  have hnet : netlocOf (lowStr (n ++ p')) = lowStr n := by
    rw [lowStr_append]
    unfold netlocOf
    rw [takeWhile_append_all hnl]
    rcases hshape with rfl | ⟨t, rfl⟩
    · simp [lowStr]
    · show lowStr n ++ List.takeWhile netChar (lowStr (slashC :: t)) = lowStr n
      have : lowStr (slashC :: t) = slashC :: lowStr t := by
        simp [lowStr, lowChar, slashC]
      rw [this, List.takeWhile_cons]
      norm_num [netChar, slashC]
  have hrest : restOf (lowStr (n ++ p')) = lowStr p' := by
    rw [lowStr_append]
    unfold restOf
    rw [dropWhile_append_all hnl]
    rcases hshape with rfl | ⟨t, rfl⟩
    · simp [lowStr]
    · have : lowStr (slashC :: t) = slashC :: lowStr t := by
        simp [lowStr, lowChar, slashC]
      rw [this, List.dropWhile_cons]
      norm_num [netChar, slashC]
  have hraw : pathRaw (lowStr (n ++ p')) = lowStr p' := by
    unfold pathRaw
    rw [hrest]
    exact List.takeWhile_eq_self_iff.mpr (lowStr_all pathChar_lowChar hp)
  have hpath : pathOf (lowStr (n ++ p')) = lowStr p' := by
    show paramsStrip (pathRaw (lowStr (n ++ p'))) = lowStr p'
    rw [hparams, hraw]
  rw [normalize_url_of_clean _ h1 h2 h3]
  unfold urlparseNetlocPath
  rw [hnet, bracketBad_lowStr, hb]
  show lowStr (lowStr n ++ rstripSlash (pathOf (lowStr (n ++ p')))) = lowStr (n ++ p')
  rw [hpath, rstripSlash_lowStr, hstrip, ← lowStr_append, lowStr_lowStr]

/-- C2, counterexample: `normalize_url` is not idempotent.  Stripping removes
only one leading `www.` label, so `"www.www.example.com"` canonicalizes to
`"www.example.com"`, which canonicalizes further to `"example.com"`. -/
theorem C2_counterexample :
    normalize_url (normalize_url (str "www.www.example.com")) ≠
      normalize_url (str "www.www.example.com") := by decide

/-- C2, amended: `canonicalize (canonicalize u) = canonicalize u` holds for
every `u` whose canonical form neither begins with `http://`, `https://` or
`www.` (otherwise the second pass strips again, e.g. `www.www.example.com`)
nor carries `;params` in the last segment of its path (otherwise the second
pass's `urlparse` drops them, e.g. `host/a;b/` canonicalizes to `host/a;b`,
which re-canonicalizes to `host/a`). -/
theorem C2_canonicalize_idempotent_on_clean (u : Str)
    (h1 : httpP.isPrefixOf (normalize_url u) = false)
    (h2 : httpsP.isPrefixOf (normalize_url u) = false)
    (h3 : wwwP.isPrefixOf (normalize_url u) = false)
    (h4 : paramsStrip (pathRaw (normalize_url u)) = pathRaw (normalize_url u)) :
    normalize_url (normalize_url u) = normalize_url u := by
  by_cases hu : u = []
  · subst hu; rfl
  · have hdef : normalize_url u =
        match urlparseNetlocPath (strippedUrl u) with
        | .ok (n, p) => lowStr (n ++ rstripSlash p)
        | .error _ => lowStr (strippedUrl u) := by
      unfold normalize_url strippedUrl
      rw [if_neg hu]
    by_cases hb : bracketBad (netlocOf (strippedUrl u)) = true
    · have hr : normalize_url u = lowStr (strippedUrl u) := by
        rw [hdef]
        unfold urlparseNetlocPath
        rw [hb]
        rfl
      rw [hr] at h1 h2 h3 ⊢
      rw [normalize_url_of_clean _ h1 h2 h3]
      unfold urlparseNetlocPath
      rw [netlocOf_lowStr, bracketBad_lowStr, hb]
      show lowStr (lowStr (strippedUrl u)) = lowStr (strippedUrl u)
      rw [lowStr_lowStr]
    · have hb' : bracketBad (netlocOf (strippedUrl u)) = false := by
        simpa using hb
      have hr : normalize_url u =
          lowStr (netlocOf (strippedUrl u) ++ rstripSlash (pathOf (strippedUrl u))) := by
        rw [hdef]
        unfold urlparseNetlocPath
        rw [hb']
        rfl
      rw [hr] at h1 h2 h3 h4 ⊢
      exact normalize_url_roundtrip _ _ (netlocOf_all _) hb'
        (fun x hx => pathOf_all _ x (mem_rstripSlash hx))
        (pathOf_shape _) (rstripSlash_idem _) h4 h1 h2 h3

/-- C2 witness: idempotence at the concrete clean input `http://Example.com/a/`. -/
theorem C2_canonicalize_idempotent_witness :
    httpP.isPrefixOf (normalize_url (str "http://Example.com/a/")) = false ∧
    normalize_url (normalize_url (str "http://Example.com/a/")) =
      normalize_url (str "http://Example.com/a/") :=
  ⟨by decide, C2_canonicalize_idempotent_on_clean (str "http://Example.com/a/")
    (by decide) (by decide) (by decide) (by decide)⟩

theorem httpP_append_ne_nil (v : Str) : httpP ++ v ≠ [] := by
  intro h
  exact absurd (List.append_eq_nil.mp h).1 (by decide)

theorem httpsP_append_ne_nil (v : Str) : httpsP ++ v ≠ [] := by
  intro h
  exact absurd (List.append_eq_nil.mp h).1 (by decide)

theorem wwwP_append_ne_nil (v : Str) : wwwP ++ v ≠ [] := by
  intro h
  exact absurd (List.append_eq_nil.mp h).1 (by decide)

theorem schemeStrip_http_append (v : Str) : schemeStrip (httpP ++ v) = v := by
  unfold schemeStrip
  rw [isPrefixOf_append_self]
  show (httpP ++ v).drop 7 = v
  rw [show (7 : Nat) = httpP.length from rfl, List.drop_left]

theorem schemeStrip_https_append (v : Str) : schemeStrip (httpsP ++ v) = v := by
  unfold schemeStrip
  rw [show httpP.isPrefixOf (httpsP ++ v) = false from rfl, isPrefixOf_append_self]
  show (httpsP ++ v).drop 8 = v
  rw [show (8 : Nat) = httpsP.length from rfl, List.drop_left]

theorem schemeStrip_www_append (v : Str) : schemeStrip (wwwP ++ v) = wwwP ++ v := by
  unfold schemeStrip
  rw [show httpP.isPrefixOf (wwwP ++ v) = false from rfl,
      show httpsP.isPrefixOf (wwwP ++ v) = false from rfl]
  rfl

theorem wwwStrip_www_append (v : Str) : wwwStrip (wwwP ++ v) = v := by
  unfold wwwStrip
  rw [isPrefixOf_append_self]
  show (wwwP ++ v).drop 4 = v
  rw [show (4 : Nat) = wwwP.length from rfl, List.drop_left]

/-- C3, counterexample: adding a scheme is not always canonicalization-neutral.
`u1 = "http://x"` and `u2 = "https://" ++ "http://x"` differ only in their
scheme (none vs `https`), yet canonicalize differently, because stripping
removes only one scheme prefix. -/
theorem C3_counterexample :
    str "https://http://x" = str "https://" ++ str "http://x" ∧
    normalize_url (str "https://" ++ str "http://x") ≠ normalize_url (str "http://x") := by
  exact ⟨by decide, by decide⟩

/-- C3, amended: URLs differing only in scheme, a leading `www.` label, a
trailing slash on the path, the query string, or the fragment canonicalize
equally, provided the shared remainder does not itself begin with `http://`,
`https://` or `www.` (first block), and — for the slash/query/fragment cases —
the host part parses (balanced brackets); for the trailing-slash case the
slash must also not complete a scheme prefix (e.g. `"http:/" ++ "/"`) and the
path's last segment must carry no `;params` (appending `/` hides them from
`urlparse`'s params split: `a.com/p;x` gives `a.com/p` but `a.com/p;x/` gives
`a.com/p;x`). -/
theorem C3_equivalences_on_clean (v q f : Str)
    (h1 : httpP.isPrefixOf v = false)
    (h2 : httpsP.isPrefixOf v = false)
    (h3 : wwwP.isPrefixOf v = false) :
    (normalize_url (httpP ++ v) = normalize_url v ∧
     normalize_url (httpsP ++ v) = normalize_url v ∧
     normalize_url (wwwP ++ v) = normalize_url v ∧
     normalize_url (httpP ++ (wwwP ++ v)) = normalize_url v ∧
     normalize_url (httpsP ++ (wwwP ++ v)) = normalize_url v) ∧
    (bracketBad (netlocOf v) = false →
      ((httpP.isPrefixOf (v ++ [slashC]) = false →
        httpsP.isPrefixOf (v ++ [slashC]) = false →
        paramsStrip (pathRaw v) = pathRaw v →
        normalize_url (v ++ [slashC]) = normalize_url v) ∧
       normalize_url (v ++ questionC :: q) = normalize_url v ∧
       normalize_url (v ++ hashC :: f) = normalize_url v)) := by
  have hv : normalize_url v =
      match urlparseNetlocPath v with
      | .ok (n, p) => lowStr (n ++ rstripSlash p)
      | .error _ => lowStr v := normalize_url_of_clean v h1 h2 h3
  constructor
  · refine ⟨?_, ?_, ?_, ?_, ?_⟩
    · rw [hv]
      unfold normalize_url
      rw [if_neg (httpP_append_ne_nil v), schemeStrip_http_append, wwwStrip_of_clean h3]
    · rw [hv]
      unfold normalize_url
      rw [if_neg (httpsP_append_ne_nil v), schemeStrip_https_append, wwwStrip_of_clean h3]
    · rw [hv]
      unfold normalize_url
      rw [if_neg (wwwP_append_ne_nil v), schemeStrip_www_append, wwwStrip_www_append]
    · rw [hv]
      unfold normalize_url
      rw [if_neg (httpP_append_ne_nil (wwwP ++ v)), schemeStrip_http_append,
        wwwStrip_www_append]
    · rw [hv]
      unfold normalize_url
      rw [if_neg (httpsP_append_ne_nil (wwwP ++ v)), schemeStrip_https_append,
        wwwStrip_www_append]
  · intro hb
    refine ⟨?_, ?_, ?_⟩
    · intro h1s h2s hparv
      have h3s : wwwP.isPrefixOf (v ++ [slashC]) = false :=
        notPrefix_append (by decide) h3 []
      rw [normalize_url_of_clean _ h1s h2s h3s, hv]
      have hnet : netlocOf (v ++ [slashC]) = netlocOf v :=
        takeWhile_append_bad (by decide) v []
      have hpath : rstripSlash (pathOf (v ++ [slashC])) = rstripSlash (pathOf v) := by
        unfold pathOf pathRaw restOf
        rw [dropWhile_append_bad (show netChar slashC = false by decide) v [],
          takeWhile_append_split]
        split
        · next hall =>
          have hself : (v.dropWhile netChar).takeWhile pathChar = v.dropWhile netChar :=
            List.takeWhile_eq_self_iff.mpr (by simpa [List.all_eq_true] using hall)
          have hparv' : paramsStrip (v.dropWhile netChar) = v.dropWhile netChar := by
            have h0 := hparv
            unfold pathRaw restOf at h0
            rw [hself] at h0
            exact h0
          show rstripSlash (paramsStrip (v.dropWhile netChar ++ [slashC])) =
            rstripSlash (paramsStrip ((v.dropWhile netChar).takeWhile pathChar))
          rw [paramsStrip_append_slash, rstripSlash_append_slash, hself, hparv']
        · rfl
      unfold urlparseNetlocPath
      rw [hnet, hb]
      show lowStr (netlocOf v ++ rstripSlash (pathOf (v ++ [slashC]))) =
        lowStr (netlocOf v ++ rstripSlash (pathOf v))
      rw [hpath]
    · have h1q : httpP.isPrefixOf (v ++ questionC :: q) = false :=
        notPrefix_append (by decide) h1 q
      have h2q : httpsP.isPrefixOf (v ++ questionC :: q) = false :=
        notPrefix_append (by decide) h2 q
      have h3q : wwwP.isPrefixOf (v ++ questionC :: q) = false :=
        notPrefix_append (by decide) h3 q
      rw [normalize_url_of_clean _ h1q h2q h3q, hv]
      have hnet : netlocOf (v ++ questionC :: q) = netlocOf v :=
        takeWhile_append_bad (by decide) v q
      have hpath : pathOf (v ++ questionC :: q) = pathOf v := by
        unfold pathOf pathRaw restOf
        rw [dropWhile_append_bad (show netChar questionC = false by decide) v q,
          takeWhile_append_bad (show pathChar questionC = false by decide)]
      unfold urlparseNetlocPath
      rw [hnet, hpath, hb]
      rfl
    · have h1f : httpP.isPrefixOf (v ++ hashC :: f) = false :=
        notPrefix_append (by decide) h1 f
      have h2f : httpsP.isPrefixOf (v ++ hashC :: f) = false :=
        notPrefix_append (by decide) h2 f
      have h3f : wwwP.isPrefixOf (v ++ hashC :: f) = false :=
        notPrefix_append (by decide) h3 f
      rw [normalize_url_of_clean _ h1f h2f h3f, hv]
      have hnet : netlocOf (v ++ hashC :: f) = netlocOf v :=
        takeWhile_append_bad (by decide) v f
      have hpath : pathOf (v ++ hashC :: f) = pathOf v := by
        unfold pathOf pathRaw restOf
        rw [dropWhile_append_bad (show netChar hashC = false by decide) v f,
          takeWhile_append_bad (show pathChar hashC = false by decide)]
      unfold urlparseNetlocPath
      rw [hnet, hpath, hb]
      rfl

/-- C3 witness: scheme- and query-invariance at the concrete clean remainder
`example.com/a`. -/
theorem C3_equivalences_witness :
    normalize_url (httpP ++ str "example.com/a") = normalize_url (str "example.com/a") ∧
    normalize_url (str "example.com/a" ++ questionC :: str "x=1") =
      normalize_url (str "example.com/a") := by
  have h := C3_equivalences_on_clean (str "example.com/a") (str "x=1") (str "frag")
    (by decide) (by decide) (by decide)
  exact ⟨h.1.1, (h.2 (by decide)).2.1⟩

/-- C4, counterexample: on parse failure `normalize_url` does not return the
lower-cased original input (it returns the lower-cased scheme/`www.`-stripped
remainder), and a non-empty input can canonicalize to the empty string. -/
theorem C4_counterexample :
    normalize_url (str "http://[a") ≠ lowStr (str "http://[a") ∧
    normalize_url (str "http://") = [] ∧ str "http://" ≠ [] :=
  ⟨by decide, by decide, by decide⟩

/-- C4, amended: `normalize_url` is total (the parse error is caught); on a
parse failure it returns the lower-cased input *after* scheme and `www.`
stripping; and the result is empty exactly when the input is empty or the
stripped input has empty netloc and empty (trailing-slash-stripped) path —
so a non-empty input such as `http://` can yield the empty string. -/
theorem C4_failure_and_emptiness (u : Str) :
    (bracketBad (netlocOf (strippedUrl u)) = true →
      normalize_url u = lowStr (strippedUrl u)) ∧
    (normalize_url u = [] ↔
      u = [] ∨ (netlocOf (strippedUrl u) = [] ∧ rstripSlash (pathOf (strippedUrl u)) = [])) := by
  by_cases hu : u = []
  · subst hu
    exact ⟨fun hb => absurd hb (by decide), ⟨fun _ => .inl rfl, fun _ => rfl⟩⟩
  · have hdef : normalize_url u =
        match urlparseNetlocPath (strippedUrl u) with
        | .ok (n, p) => lowStr (n ++ rstripSlash p)
        | .error _ => lowStr (strippedUrl u) := by
      unfold normalize_url strippedUrl
      rw [if_neg hu]
    by_cases hb : bracketBad (netlocOf (strippedUrl u)) = true
    · have hne : netlocOf (strippedUrl u) ≠ [] := by
        intro h
        rw [h] at hb
        exact absurd hb (by decide)
      have hr : normalize_url u = lowStr (strippedUrl u) := by
        rw [hdef]
        unfold urlparseNetlocPath
        rw [hb]
        rfl
      refine ⟨fun _ => hr, ?_, ?_⟩
      · intro h0
        rw [hr] at h0
        have hs : strippedUrl u = [] := lowStr_eq_nil.mp h0
        rw [hs] at hne
        exact absurd rfl hne
      · rintro (h | ⟨hn, _⟩)
        · exact absurd h hu
        · exact absurd hn hne
    · have hb' : bracketBad (netlocOf (strippedUrl u)) = false := by simpa using hb
      have hr : normalize_url u =
          lowStr (netlocOf (strippedUrl u) ++ rstripSlash (pathOf (strippedUrl u))) := by
        rw [hdef]
        unfold urlparseNetlocPath
        rw [hb']
        rfl
      refine ⟨fun hbt => absurd hbt (by simp [hb']), ?_⟩
      rw [hr, lowStr_eq_nil, List.append_eq_nil]
      constructor
      · exact fun h => .inr h
      · rintro (h | hh)
        · exact absurd h hu
        · exact hh

/-- C4 witness: the amended failure clause at the concrete input `http://[a`. -/
theorem C4_failure_witness :
    bracketBad (netlocOf (strippedUrl (str "http://[a"))) = true ∧
    normalize_url (str "http://[a") = lowStr (strippedUrl (str "http://[a")) :=
  ⟨by decide, (C4_failure_and_emptiness (str "http://[a")).1 (by decide)⟩

theorem find_map_pointwise (l : List ArticleRow) (articleId : Nat)
    (g : ArticleRow → ArticleRow)
    (hid : ∀ a, (g a).id = a.id)
    (hfix : ∀ a, a.id ≠ articleId → g a = a) :
    (l.map g).find? (fun a => a.id == articleId)
      = (l.find? (fun a => a.id == articleId)).map g := by
  induction l with
  | nil => rfl
  | cons a t ih =>
    by_cases h : a.id = articleId
    · rw [List.map_cons, List.find?_cons_of_pos _ (by simp [hid, h]),
        List.find?_cons_of_pos _ (by simp [h]), Option.map_some']
    · rw [List.map_cons, hfix a h, List.find?_cons_of_neg _ (by simp [h]),
        List.find?_cons_of_neg _ (by simp [h]), ih]

theorem map_pointwise_id (l : List ArticleRow) (articleId : Nat)
    (g : ArticleRow → ArticleRow) (hfix : ∀ a, a.id ≠ articleId → g a = a)
    (h : ∀ a ∈ l, a.id ≠ articleId) :
    l.map g = l := by
  induction l with
  | nil => rfl
  | cons a t ih =>
    rw [List.map_cons, hfix a (h a (by simp)), ih (fun x hx => h x (by simp [hx]))]

/-- C1, counterexample: `published` is not terminal at the storage layer.
`update_article_status` carries no guard on the current status, so a later
`setStatus(id, rejected)` moves a published article to `rejected`. -/
theorem C1_counterexample :
    (get_article_by_id statusDB 1).map ArticleRow.status = some .published ∧
    (get_article_by_id (update_article_status statusDB 1 .rejected) 1).map
      ArticleRow.status = some .rejected := by
  exact ⟨by decide, by decide⟩

/-- C1, amended: `update_article_status` sets the requested status
unconditionally — `pending → rejected` and `pending → published` work as
specified, but nothing prevents a transition out of `rejected` or
`published`; the terminal-state rule is not enforced by the code. -/
theorem C1_setStatus_unconditional (db : DB) (articleId : Nat) (st : Status)
    (a : ArticleRow) (h : get_article_by_id db articleId = some a) :
    (get_article_by_id (update_article_status db articleId st) articleId).map
      ArticleRow.status = some st := by
  unfold update_article_status get_article_by_id at *
  have ha : a.id = articleId := by simpa using List.find?_some h
  by_cases hst : st = .published
  · rw [if_pos hst, find_map_pointwise _ articleId _
        (fun a => by split <;> rfl)
        (fun a ha => by rw [if_neg ha]), h]
    simp [ha]
  · rw [if_neg hst, find_map_pointwise _ articleId _
        (fun a => by split <;> rfl)
        (fun a ha => by rw [if_neg ha]), h]
    simp [ha]

/-- C1 witness: the amended rule at the concrete store `statusDB`. -/
theorem C1_setStatus_unconditional_witness :
    (get_article_by_id (update_article_status statusDB 1 .pending) 1).map
      ArticleRow.status = some .pending :=
  C1_setStatus_unconditional statusDB 1 .pending artPublished (by decide)

/-- C8: on an existing article, `setStatus(id, published)` writes the status
and stamps `published_at = CURRENT_TIMESTAMP` (non-null), while
`setStatus(id, rejected)` writes the status and never touches `published_at`
(so it stays null on any article that has not been published). -/
theorem C8_publish_stamps_timestamp (db : DB) (articleId : Nat) (a : ArticleRow)
    (h : get_article_by_id db articleId = some a) :
    get_article_by_id (update_article_status db articleId .published) articleId =
      some { a with status := .published, publishedAt := some db.now } ∧
    get_article_by_id (update_article_status db articleId .rejected) articleId =
      some { a with status := .rejected } := by
  unfold update_article_status get_article_by_id at *
  have ha : a.id = articleId := by simpa using List.find?_some h
  constructor
  · rw [if_pos rfl, find_map_pointwise _ articleId _
        (fun a => by split <;> rfl)
        (fun a ha => by rw [if_neg ha]), h]
    simp [ha]
  · rw [if_neg (by simp), find_map_pointwise _ articleId _
        (fun a => by split <;> rfl)
        (fun a ha => by rw [if_neg ha]), h]
    simp [ha]

/-- C8 witness: publishing the concrete pending article stamps `published_at`
with the clock value, rejecting it leaves `published_at` null. -/
theorem C8_publish_stamps_witness :
    get_article_by_id (update_article_status pendingDB 3 .published) 3 =
      some { artPending with status := .published, publishedAt := some 11 } ∧
    get_article_by_id (update_article_status pendingDB 3 .rejected) 3 =
      some { artPending with status := .rejected } :=
  C8_publish_stamps_timestamp pendingDB 3 artPending (by decide)

/-- C10: on a missing article id, `update_article_status`,
`update_article_rewrite` and `update_article_image` are silent no-ops: the
`UPDATE ... WHERE id = ?` matches no row, nothing raises, no NotFound is
signalled, and the database is unchanged. -/
theorem C10_missing_id_noop (db : DB) (articleId : Nat)
    (h : get_article_by_id db articleId = none) :
    (∀ st, update_article_status db articleId st = db) ∧
    (∀ t c hs, update_article_rewrite db articleId t c hs = db) ∧
    (∀ u p, update_article_image db articleId u p = db) := by
  have hids : ∀ a ∈ db.articles, a.id ≠ articleId := by
    intro a ha
    have := List.find?_eq_none.mp h a ha
    simpa using this
  refine ⟨fun st => ?_, fun t c hs => ?_, fun u p => ?_⟩
  · unfold update_article_status
    by_cases hst : st = .published
    · rw [if_pos hst, map_pointwise_id _ articleId _
        (fun a ha => by rw [if_neg ha]) hids]
    · rw [if_neg hst, map_pointwise_id _ articleId _
        (fun a ha => by rw [if_neg ha]) hids]
  · unfold update_article_rewrite
    rw [map_pointwise_id _ articleId _
      (fun a ha => by rw [if_neg ha]) hids]
  · unfold update_article_image
    rw [map_pointwise_id _ articleId _
      (fun a ha => by rw [if_neg ha]) hids]

/-- C10 witness: mutations on the absent id 7 leave the concrete store
unchanged. -/
theorem C10_missing_id_noop_witness :
    update_article_status statusDB 7 .published = statusDB ∧
    update_article_rewrite statusDB 7 (str "x") (str "y") [] = statusDB ∧
    update_article_image statusDB 7 (str "u") (str "p") = statusDB :=
  ⟨(C10_missing_id_noop statusDB 7 (by decide)).1 .published,
   (C10_missing_id_noop statusDB 7 (by decide)).2.1 (str "x") (str "y") [],
   (C10_missing_id_noop statusDB 7 (by decide)).2.2 (str "u") (str "p")⟩

theorem filter_join_eq_filter_pending (arts : List ArticleRow) (srcs : List SourceRow)
    (hwf : ∀ a ∈ arts, a.status = .pending → ∃ s ∈ srcs, s.id = a.sourceId) :
    arts.filter (fun a =>
        a.status == Status.pending && srcs.any (fun s => s.id == a.sourceId)) =
      arts.filter (fun a => a.status == Status.pending) := by
  induction arts with
  | nil => rfl
  | cons a t ih =>
    have ht := ih (fun x hx hp => hwf x (List.mem_cons_of_mem _ hx) hp)
    by_cases hs : a.status = Status.pending
    · have hany : srcs.any (fun s => s.id == a.sourceId) = true := by
        obtain ⟨s, hsmem, hsid⟩ := hwf a (by simp) hs
        exact List.any_eq_true.mpr ⟨s, hsmem, by simp [hsid]⟩
      simp [List.filter_cons, hs, hany, ht]
    · simp [List.filter_cons, hs, ht]

theorem range_flatMap_take_drop (l : List ArticleRow) (p n : Nat) :
    (List.range n).flatMap (fun i => (l.drop (i * p)).take p) = l.take (n * p) := by
  induction n with
  | zero => simp
  | succ n ih =>
    rw [List.range_succ, List.flatMap_append, ih]
    simp only [List.flatMap_cons, List.flatMap_nil, List.append_nil]
    rw [Nat.succ_mul, List.take_add]

/-- C7: for any page size `p ≥ 1`, concatenating pages `1, 2, …` of
`get_pending_articles_paginated` (any number `n` of pages with `n*p ≥ total`)
reproduces exactly the pending set, newest-first, with no duplicates and no
omissions, and every call reports the same total, the number of pending rows.
The store is assumed well-formed: every pending article references an
existing source (the schema's foreign key with cascade delete). -/
theorem C7_pagination_reconstructs (db : DB) (p n : Nat) (_hp : 1 ≤ p)
    (hwf : ∀ a ∈ db.articles, a.status = .pending → ∃ s ∈ db.sources, s.id = a.sourceId)
    (hn : (pendingOf db).length ≤ n * p) :
    ((List.range n).flatMap (fun i => (get_pending_articles_paginated db (i + 1) p).1)) =
      sortNewestFirst (pendingOf db) ∧
    (sortNewestFirst (pendingOf db)).Perm (pendingOf db) ∧
    List.Sorted newerFirst (sortNewestFirst (pendingOf db)) ∧
    (∀ page, (get_pending_articles_paginated db page p).2 = (pendingOf db).length) := by
  have hfilter := filter_join_eq_filter_pending db.articles db.sources hwf
  refine ⟨?_, List.perm_insertionSort _ _, List.sorted_insertionSort _ _, fun page => rfl⟩
  have hpage : (fun i => (get_pending_articles_paginated db (i + 1) p).1) =
      (fun i => ((sortNewestFirst (pendingOf db)).drop (i * p)).take p) := by
    funext i
    show ((sortNewestFirst (db.articles.filter (fun a =>
        a.status == Status.pending && db.sources.any (fun s => s.id == a.sourceId)))).drop
          ((i + 1 - 1) * p)).take p = _
    rw [hfilter]
    simp [pendingOf]
  rw [hpage, range_flatMap_take_drop, List.take_of_length_le]
  calc (sortNewestFirst (pendingOf db)).length
      = (pendingOf db).length :=
        (List.perm_insertionSort newerFirst (pendingOf db)).length_eq
    _ ≤ n * p := hn

/-- Keywords reach the store only through `add_keyword`, which lower-cases, so
every stored keyword is lower-case; this is the store invariant assumed by the
relevance-filter theorem. -/
theorem add_keyword_keeps_lowercase (db : DB) (k : Str)
    (h : ∀ x ∈ db.keywords, lowStr x = x) :
    ∀ x ∈ (add_keyword db k).2.keywords, lowStr x = x := by
  unfold add_keyword
  split
  · exact h
  · intro x hx
    rcases List.mem_append.mp hx with hx | hx
    · exact h x hx
    · rw [List.mem_singleton.mp hx]
      exact lowStr_lowStr k

/-- C9: on any store whose keywords are lower-case (the invariant maintained
by `add_keyword`), the relevance filter accepts a text iff the keyword set is
empty or some stored keyword is a case-insensitive substring of the text. -/
theorem C9_relevance_filter (db : DB) (t : Str)
    (hlow : ∀ k ∈ db.keywords, lowStr k = k) :
    (is_marketplace_related db t = true ↔
      (db.keywords = [] ∨ ∃ k ∈ db.keywords, caseInsensitiveSubstr k t = true)) := by
  unfold is_marketplace_related caseInsensitiveSubstr
  have hperm : (get_keywords db).Perm db.keywords := List.perm_insertionSort _ _
  by_cases hk : get_keywords db = []
  · have hnil : db.keywords = [] := by
      have hlen := hperm.length_eq
      rw [hk] at hlen
      exact List.length_eq_zero.mp hlen.symm
    simp [hk, hnil]
  · have hnil : db.keywords ≠ [] := by
      intro h
      rw [h] at hperm
      exact hk hperm.eq_nil
    rw [if_neg hk]
    simp only [List.any_eq_true]
    constructor
    · rintro ⟨k, hkmem, hc⟩
      have hkmem' := hperm.mem_iff.mp hkmem
      exact .inr ⟨k, hkmem', by rwa [hlow k hkmem']⟩
    · rintro (h | ⟨k, hkmem, hc⟩)
      · exact absurd h hnil
      · exact ⟨k, hperm.mem_iff.mpr hkmem, by rwa [hlow k hkmem] at hc⟩

/-- C9 witness: the filter at the concrete store `kwDB` and the text
`Ozon launches`, whose case-insensitive match is `ozon`. -/
theorem C9_relevance_filter_witness :
    is_marketplace_related kwDB (str "Ozon launches") = true :=
  (C9_relevance_filter kwDB (str "Ozon launches") (by decide)).mpr
    (.inr ⟨str "ozon", by decide, by decide⟩)

theorem add_news_article_sources_now (db : DB) (sourceId : Nat) (title content url : Str) :
    (add_news_article db sourceId title content url).2.sources = db.sources ∧
    (add_news_article db sourceId title content url).2.now = db.now := by
  unfold add_news_article
  split
  · exact ⟨rfl, rfl⟩
  · exact ⟨rfl, rfl⟩

theorem processItems_sources_now (sourceId : Nat) (items : List Item) : ∀ db : DB,
    (processItems db sourceId items).1.sources = db.sources ∧
    (processItems db sourceId items).1.now = db.now := by
  induction items with
  | nil => intro db; exact ⟨rfl, rfl⟩
  | cons it rest ih =>
    intro db
    unfold processItems
    split
    · exact ih db
    · split
      · exact ih db
      · split
        · next oid db' heq =>
          have h2 : db'.sources = db.sources ∧ db'.now = db.now := by
            have := add_news_article_sources_now db sourceId it.title it.content
              (normalize_url it.url)
            rw [heq] at this
            exact this
          refine ⟨?_, ?_⟩
          · show (processItems db' sourceId rest).1.sources = db.sources
            rw [(ih db').1, h2.1]
          · show (processItems db' sourceId rest).1.now = db.now
            rw [(ih db').2, h2.2]
        · next db' heq =>
          have h2 : db'.sources = db.sources ∧ db'.now = db.now := by
            have := add_news_article_sources_now db sourceId it.title it.content
              (normalize_url it.url)
            rw [heq] at this
            exact this
          rw [(ih db').1, (ih db').2, h2.1, h2.2]
          exact ⟨rfl, rfl⟩

theorem find_map_keyinv {α : Type} (l : List α) (p : α → Bool) (g : α → α)
    (hp : ∀ a, p (g a) = p a) :
    (l.map g).find? p = (l.find? p).map g := by
  induction l with
  | nil => rfl
  | cons a t ih =>
    by_cases h : p a = true
    · rw [List.map_cons, List.find?_cons_of_pos _ (by rw [hp]; exact h),
        List.find?_cons_of_pos _ h, Option.map_some']
    · rw [List.map_cons, List.find?_cons_of_neg _ (by rw [hp]; exact h),
        List.find?_cons_of_neg _ h, ih]

theorem get_source_update_self (db : DB) (sourceId : Nat) :
    get_source_by_id (update_source_last_check db sourceId) sourceId =
      (get_source_by_id db sourceId).map
        (fun s => { s with lastCheck := some db.now }) := by
  unfold get_source_by_id update_source_last_check
  rw [find_map_keyinv _ _ _ (fun s => by split <;> rfl)]
  cases hf : db.sources.find? (fun s => s.id == sourceId) with
  | none => rfl
  | some s0 =>
    have hs0 : s0.id = sourceId := by simpa using List.find?_some hf
    simp [hs0]

theorem get_source_update_other (db : DB) (sourceId k : Nat) (h : k ≠ sourceId) :
    get_source_by_id (update_source_last_check db sourceId) k =
      get_source_by_id db k := by
  unfold get_source_by_id update_source_last_check
  rw [find_map_keyinv _ _ _ (fun s => by split <;> rfl)]
  cases hf : db.sources.find? (fun s => s.id == k) with
  | none => rfl
  | some s0 =>
    have hs0 : s0.id = k := by simpa using List.find?_some hf
    have : ¬ s0.id = sourceId := by rw [hs0]; exact h
    simp [this]

theorem sweepSources_now (fetch : Fetch) : ∀ (L : List SourceRow) (db : DB) acc total,
    (sweepSources fetch db L acc total).1.now = db.now := by
  intro L
  induction L with
  | nil => intro db acc total; rfl
  | cons s rest ih =>
    intro db acc total
    unfold sweepSources
    cases hfe : fetch s.source_type s.url with
    | error e => exact ih db acc total
    | ok items =>
      show (sweepSources fetch
        (update_source_last_check (processItems db s.id items).1 s.id) rest _ _).1.now = db.now
      rw [ih]
      show (processItems db s.id items).1.now = db.now
      exact (processItems_sources_now s.id items db).2

theorem sweepSources_sources_untouched (fetch : Fetch) :
    ∀ (L : List SourceRow) (db : DB) acc total (k : Nat),
    (∀ s ∈ L, s.id ≠ k) →
    get_source_by_id (sweepSources fetch db L acc total).1 k = get_source_by_id db k := by
  intro L
  induction L with
  | nil => intro db acc total k _; rfl
  | cons s rest ih =>
    intro db acc total k hk
    unfold sweepSources
    cases hfe : fetch s.source_type s.url with
    | error e => exact ih db acc total k (fun x hx => hk x (List.mem_cons_of_mem _ hx))
    | ok items =>
      show get_source_by_id (sweepSources fetch
        (update_source_last_check (processItems db s.id items).1 s.id) rest _ _).1 k = _
      rw [ih _ _ _ k (fun x hx => hk x (List.mem_cons_of_mem _ hx)),
        get_source_update_other _ s.id k (fun h => hk s (by simp) h.symm)]
      unfold get_source_by_id
      rw [(processItems_sources_now s.id items db).1]

theorem sweepSources_lastCheck (fetch : Fetch) :
    ∀ (L : List SourceRow) (db : DB) acc total (s : SourceRow),
    s ∈ L →
    L.Pairwise (fun a b => a.id ≠ b.id) →
    (∃ items, fetch s.source_type s.url = .ok items) →
    (∃ s₀, get_source_by_id db s.id = some s₀) →
    ∃ row, get_source_by_id (sweepSources fetch db L acc total).1 s.id = some row ∧
      row.lastCheck = some db.now := by
  intro L
  induction L with
  | nil => intro db acc total s hmem; exact absurd hmem (List.not_mem_nil s)
  | cons x rest ih =>
    intro db acc total s hmem hpw hfet hfound
    rcases List.mem_cons.mp hmem with rfl | hmem'
    · obtain ⟨items, hok⟩ := hfet
      unfold sweepSources
      rw [hok]
      show ∃ row, get_source_by_id (sweepSources fetch
        (update_source_last_check (processItems db s.id items).1 s.id) rest _ _).1 s.id =
          some row ∧ row.lastCheck = some db.now
      have hrest_ids : ∀ r ∈ rest, r.id ≠ s.id := by
        intro r hr h
        exact (List.pairwise_cons.mp hpw).1 r hr h.symm
      rw [sweepSources_sources_untouched fetch rest _ _ _ s.id hrest_ids]
      obtain ⟨s₀, hs₀⟩ := hfound
      have hpr : get_source_by_id (processItems db s.id items).1 s.id = some s₀ := by
        unfold get_source_by_id
        rw [(processItems_sources_now s.id items db).1]
        exact hs₀
      rw [get_source_update_self, hpr]
      refine ⟨_, rfl, ?_⟩
      show some (processItems db s.id items).1.now = some db.now
      rw [(processItems_sources_now s.id items db).2]
    · unfold sweepSources
      cases hfe : fetch x.source_type x.url with
      | error e =>
        exact ih db acc total s hmem' (List.pairwise_cons.mp hpw).2 hfet hfound
      | ok items =>
        have hsrc : get_source_by_id (processItems db x.id items).1 s.id =
            get_source_by_id db s.id := by
          unfold get_source_by_id
          rw [(processItems_sources_now x.id items db).1]
        obtain ⟨s₀, hs₀⟩ := hfound
        have hfound1 : ∃ s₁, get_source_by_id
            (update_source_last_check (processItems db x.id items).1 x.id) s.id = some s₁ := by
          by_cases hxs : s.id = x.id
          · rw [hxs, get_source_update_self]
            rw [hxs] at hsrc hs₀
            rw [hsrc, hs₀]
            exact ⟨_, rfl⟩
          · rw [get_source_update_other _ x.id s.id hxs, hsrc, hs₀]
            exact ⟨_, rfl⟩
        obtain ⟨row, hrow, hlc⟩ :=
          ih _ _ _ s hmem' (List.pairwise_cons.mp hpw).2 hfet hfound1
        refine ⟨row, hrow, ?_⟩
        rw [hlc]
        show some (update_source_last_check (processItems db x.id items).1 x.id).now = _
        show some (processItems db x.id items).1.now = some db.now
        rw [(processItems_sources_now x.id items db).2]

theorem dictGet_dictUpsert_self : ∀ (m : List (Str × Nat)) (k : Str) (v : Nat),
    dictGet (dictUpsert m k v) k = some v := by
  intro m
  induction m with
  | nil => intro k v; simp [dictGet, dictUpsert]
  | cons e rest ih =>
    intro k v
    unfold dictUpsert
    by_cases he : e.1 = k
    · rw [if_pos he]
      simp [dictGet]
    · rw [if_neg he]
      unfold dictGet
      rw [List.find?_cons_of_neg _ (by simp [he])]
      exact ih k v

theorem dictGet_dictUpsert_other : ∀ (m : List (Str × Nat)) (k : Str) (v : Nat) (k' : Str),
    k' ≠ k → dictGet (dictUpsert m k v) k' = dictGet m k' := by
  intro m
  induction m with
  | nil =>
    intro k v k' h
    unfold dictUpsert dictGet
    rw [List.find?_cons_of_neg _ (by intro hh; simp at hh; exact h hh.symm)]
  | cons e rest ih =>
    intro k v k' h
    unfold dictUpsert
    by_cases he : e.1 = k
    · rw [if_pos he]
      unfold dictGet
      rw [List.find?_cons_of_neg _ (by intro hh; simp at hh; exact h hh.symm),
        List.find?_cons_of_neg _ (by intro hh; simp at hh; rw [he] at hh; exact h hh.symm)]
    · rw [if_neg he]
      by_cases he' : e.1 = k'
      · unfold dictGet
        rw [List.find?_cons_of_pos _ (by simp [he']), List.find?_cons_of_pos _ (by simp [he'])]
      · unfold dictGet
        rw [List.find?_cons_of_neg _ (by simp [he']), List.find?_cons_of_neg _ (by simp [he'])]
        exact ih k v k' h

theorem dictGet_foldl_upsert_not_mem :
    ∀ (names : List Str) (m : List (Str × Nat)) (k : Str), k ∉ names →
    dictGet (names.foldl (fun m n => dictUpsert m n 0) m) k = dictGet m k := by
  intro names
  induction names with
  | nil => intro m k _; rfl
  | cons n rest ih =>
    intro m k hk
    show dictGet (rest.foldl (fun m n => dictUpsert m n 0) (dictUpsert m n 0)) k = _
    rw [ih _ k (fun h => hk (List.mem_cons_of_mem _ h)),
      dictGet_dictUpsert_other _ _ _ _ (fun h => hk (by simp [h]))]

theorem dictGet_dictInit_of_mem' :
    ∀ (names : List Str) (m : List (Str × Nat)) (k : Str), k ∈ names →
    dictGet (names.foldl (fun m n => dictUpsert m n 0) m) k = some 0 := by
  intro names
  induction names with
  | nil => intro m k hk; exact absurd hk (List.not_mem_nil k)
  | cons n rest ih =>
    intro m k hk
    show dictGet (rest.foldl (fun m n => dictUpsert m n 0) (dictUpsert m n 0)) k = some 0
    by_cases hr : k ∈ rest
    · exact ih _ k hr
    · have hn : k = n := by
        rcases List.mem_cons.mp hk with h | h
        · exact h
        · exact absurd h hr
      rw [dictGet_foldl_upsert_not_mem rest _ k hr, hn, dictGet_dictUpsert_self]

theorem dictGet_dictInit_of_mem (names : List Str) (k : Str) (h : k ∈ names) :
    dictGet (dictInit names) k = some 0 :=
  dictGet_dictInit_of_mem' names [] k h

theorem dictGet_dictAdd (m : List (Str × Nat)) (k : Str) (c : Nat) (k' : Str) :
    dictGet (dictAdd m k c) k' =
      (dictGet m k').map (fun v => if k' = k then v + c else v) := by
  unfold dictGet dictAdd
  rw [find_map_keyinv _ _ _ (fun e => by split <;> rfl)]
  cases hf : m.find? (fun e => e.1 == k') with
  | none => rfl
  | some e =>
    have he : e.1 = k' := by simpa using List.find?_some hf
    by_cases hk : k' = k
    · simp [Option.map_some', he, hk]
    · have : ¬ e.1 = k := by rw [he]; exact hk
      simp [Option.map_some', this, hk]

theorem sweepSources_acc_mono (fetch : Fetch) :
    ∀ (L : List SourceRow) (db : DB) acc total (k : Str) (v : Nat),
    dictGet acc k = some v →
    ∃ w, dictGet (sweepSources fetch db L acc total).2.1 k = some w := by
  intro L
  induction L with
  | nil => intro db acc total k v h; exact ⟨v, h⟩
  | cons s rest ih =>
    intro db acc total k v h
    unfold sweepSources
    cases hfe : fetch s.source_type s.url with
    | error e => exact ih db acc total k v h
    | ok items =>
      apply ih _ _ _ k ((fun v => if k = s.name then v + (processItems db s.id items).2 else v) v)
      rw [dictGet_dictAdd, h, Option.map_some']

theorem sweepSources_acc_zero (fetch : Fetch) :
    ∀ (L : List SourceRow) (db : DB) acc total (k : Str),
    dictGet acc k = some 0 →
    (∀ s ∈ L, s.name = k → fetch s.source_type s.url = .error ()) →
    dictGet (sweepSources fetch db L acc total).2.1 k = some 0 := by
  intro L
  induction L with
  | nil => intro db acc total k h _; exact h
  | cons s rest ih =>
    intro db acc total k h herr
    unfold sweepSources
    cases hfe : fetch s.source_type s.url with
    | error e => exact ih db acc total k h (fun x hx => herr x (List.mem_cons_of_mem _ hx))
    | ok items =>
      have hname : s.name ≠ k := by
        intro hn
        have := herr s (by simp) hn
        rw [hfe] at this
        exact absurd this (by simp)
      apply ih _ _ _ k
      · rw [dictGet_dictAdd, h, Option.map_some', if_neg (fun hh => hname hh.symm)]
      · exact fun x hx => herr x (List.mem_cons_of_mem _ hx)

/-- Every active source has an entry in the sweep's `by_source` map (its name
is a key of the initial dict, and counting preserves the key set). -/
theorem check_sources_by_source_covers (db : DB) (fetch : Fetch) :
    ∀ s ∈ get_news_sources_active db,
      ∃ c, dictGet (check_sources_for_news db fetch).1.by_source s.name = some c := by
  intro s hs
  have h0 : dictGet (dictInit ((get_news_sources_active db).map (fun s => s.name))) s.name
      = some 0 :=
    dictGet_dictInit_of_mem _ _ (List.mem_map.mpr ⟨s, hs, rfl⟩)
  exact sweepSources_acc_mono fetch (get_news_sources_active db) db _ 0 s.name 0 h0

/-- C5, counterexample: `by_source` is keyed by the (non-unique) source name,
so when the failing source `colSrc1` shares its name with a succeeding
source, the entry for the failing source's name reads 1, not 0. -/
theorem C5_counterexample :
    colFetch colSrc1.source_type colSrc1.url = .error () ∧
    colSrc1 ∈ get_news_sources_active colDB ∧
    dictGet (check_sources_for_news colDB colFetch).1.by_source colSrc1.name = some 1 := by
  refine ⟨rfl, by decide, by decide⟩

/-- C5, amended: in a sweep where exactly the source `K` raises during fetch
and the active sources carry pairwise-distinct names (and the store's ids are
unique), the sweep — which never raises, per-source errors being caught —
still stamps the last-check of every other source with the sweep clock, still
reports a `by_source` entry for every active source, and reports count 0 for
`K`'s name. -/
theorem ne_id_symm : Symmetric (fun a b : SourceRow => a.id ≠ b.id) :=
  fun _ _ h he => h he.symm

theorem ne_name_symm : Symmetric (fun a b : SourceRow => a.name ≠ b.name) :=
  fun _ _ h he => h he.symm

theorem C5_failure_isolation (db : DB) (fetch : Fetch) (K : SourceRow)
    (hKmem : K ∈ get_news_sources_active db)
    (hKerr : fetch K.source_type K.url = .error ())
    (hok : ∀ s ∈ get_news_sources_active db, s.id ≠ K.id →
      ∃ items, fetch s.source_type s.url = .ok items)
    (hids : db.sources.Pairwise (fun a b => a.id ≠ b.id))
    (hnames : (get_news_sources_active db).Pairwise (fun a b => a.name ≠ b.name)) :
    (∀ s ∈ get_news_sources_active db, s.id ≠ K.id →
      ∃ row, get_source_by_id (check_sources_for_news db fetch).2 s.id = some row ∧
        row.lastCheck = some db.now) ∧
    dictGet (check_sources_for_news db fetch).1.by_source K.name = some 0 ∧
    (∀ s ∈ get_news_sources_active db,
      ∃ c, dictGet (check_sources_for_news db fetch).1.by_source s.name = some c) := by
  have hperm : (get_news_sources_active db).Perm
      (db.sources.filter (fun s => s.isActive)) :=
    List.perm_insertionSort _ _
  have hids_act : (get_news_sources_active db).Pairwise (fun a b => a.id ≠ b.id) := by
    have h1 : (db.sources.filter (fun s => s.isActive)).Pairwise (fun a b => a.id ≠ b.id) :=
      List.Pairwise.sublist (List.filter_sublist db.sources) hids
    exact (List.Perm.pairwise_iff (fun {_ _} h => ne_id_symm h) hperm).mpr h1
  refine ⟨?_, ?_, check_sources_by_source_covers db fetch⟩
  · intro s hs hsK
    have hmem_src : s ∈ db.sources := List.mem_of_mem_filter (hperm.mem_iff.mp hs)
    have hfound : ∃ s₀, get_source_by_id db s.id = some s₀ := by
      cases hf : get_source_by_id db s.id with
      | some s₀ => exact ⟨s₀, rfl⟩
      | none =>
        exfalso
        have := List.find?_eq_none.mp hf s hmem_src
        simp at this
    exact sweepSources_lastCheck fetch (get_news_sources_active db) db _ 0 s hs hids_act
      (hok s hs hsK) hfound
  · have h0 : dictGet (dictInit ((get_news_sources_active db).map (fun s => s.name)))
        K.name = some 0 :=
      dictGet_dictInit_of_mem _ _ (List.mem_map.mpr ⟨K, hKmem, rfl⟩)
    apply sweepSources_acc_zero fetch (get_news_sources_active db) db _ 0 K.name h0
    intro s hs hname
    by_cases hsK : s = K
    · rw [hsK]
      exact hKerr
    · exact absurd hname
        (List.Pairwise.forall ne_name_symm hnames hs hKmem hsK)

/-- C5 witness: the amended sweep guarantees at the concrete two-source store
where `alpha` raises. -/
theorem C5_failure_isolation_witness :
    (∃ row, get_source_by_id (check_sources_for_news wDB wFetch).2 wSrc2.id = some row ∧
      row.lastCheck = some wDB.now) ∧
    dictGet (check_sources_for_news wDB wFetch).1.by_source wSrc1.name = some 0 := by
  have hok : ∀ s ∈ get_news_sources_active wDB, s.id ≠ wSrc1.id →
      ∃ items, wFetch s.source_type s.url = .ok items := by
    intro s hs hid
    have hcases : s = wSrc1 ∨ s = wSrc2 := by
      have hl : get_news_sources_active wDB = [wSrc1, wSrc2] := by decide
      rw [hl] at hs
      simpa using hs
    rcases hcases with rfl | rfl
    · exact absurd rfl hid
    · exact ⟨[], rfl⟩
  have h := C5_failure_isolation wDB wFetch wSrc1 (by decide) rfl hok
    (by decide) (by decide)
  exact ⟨h.1 wSrc2 (by decide) (by decide), h.2.1⟩

/-- C6, counterexample: with a timer sweep mid-flight (`sweepInFlight = true`),
the manual trigger is not rejected with a busy indication — it immediately
runs a full sweep (which here processes a source, incrementing its counter). -/
theorem C6_counterexample :
    (force_check_sources ⟨true, true⟩ colDB colFetch).1 ≠ ForceOutcome.busy ∧
    (force_check_sources ⟨true, true⟩ colDB colFetch).1 =
      ForceOutcome.ran (check_sources_for_news colDB colFetch).1 ∧
    dictGet (check_sources_for_news colDB colFetch).1.by_source (str "a") = some 1 := by
  refine ⟨by decide, rfl, by decide⟩

/-- C6, amended: `force_check_sources` performs no mutual-exclusion check at
all: whatever the scheduler state — including one with a sweep in flight — it
never returns `SchedulerBusy` and immediately runs a full sweep that
processes every active source (each gets a `by_source` entry). -/
theorem C6_force_ignores_state (st : SchedulerState) (db : DB) (fetch : Fetch) :
    (force_check_sources st db fetch).1 ≠ ForceOutcome.busy ∧
    (∃ r, (force_check_sources st db fetch).1 = ForceOutcome.ran r ∧
      ∀ s ∈ get_news_sources_active db, ∃ c, dictGet r.by_source s.name = some c) := by
  refine ⟨?_, ⟨(check_sources_for_news db fetch).1, rfl,
    check_sources_by_source_covers db fetch⟩⟩
  intro h
  exact ForceOutcome.noConfusion h

/-- C6 witness: the amended rule at a concrete in-flight scheduler state. -/
theorem C6_force_ignores_state_witness :
    (force_check_sources ⟨true, true⟩ wDB wFetch).1 ≠ ForceOutcome.busy :=
  (C6_force_ignores_state ⟨true, true⟩ wDB wFetch).1

/-- C7 witness: page size 1 over the concrete two-article store; two pages
reproduce the sorted pending set and the reported total is 2. -/
theorem C7_pagination_witness :
    ((List.range 2).flatMap (fun i => (get_pending_articles_paginated pagDB (i + 1) 1).1)) =
      sortNewestFirst (pendingOf pagDB) ∧
    (get_pending_articles_paginated pagDB 1 1).2 = (pendingOf pagDB).length :=
  ⟨(C7_pagination_reconstructs pagDB 1 2 (by decide) (by decide) (by decide)).1,
   (C7_pagination_reconstructs pagDB 1 2 (by decide) (by decide) (by decide)).2.2.2 1⟩
